import Mathlib

/-!
A shallow embedding of the trie-based task search index of the
New_Task_Management_System repository (`src/TaskSearchIndex.cpp`,
`include/TaskSearchIndex.hpp`) together with the dirty-flag bookkeeping of
the record store (`src/Tasks.cpp`).  C++ strings are embedded as `List Char`
(one entry per byte), `std::reference_wrapper<const Task>` back-references
are embedded as stored `Task` values whose `id` field plays the role of the
object address (addresses are unique per live task object, and every claim
below keeps a task's text fields fixed between the operations it relates, so
storing the value is faithful).
-/

set_option maxHeartbeats 1000000

namespace TaskSystem

/-- `TaskStatus` from `include/Task.hpp`. -/
inductive TaskStatus where
  | TODO
  | IN_PROGRESS
  | COMPLETED
deriving DecidableEq, Repr

/-- `TaskPriority` from `include/Task.hpp`. -/
inductive TaskPriority where
  | LOW
  | MEDIUM
  | HIGH
deriving DecidableEq, Repr

/-- The text-bearing views of a task record that the search index reads
(`Task` in `include/Task.hpp`); `id` stands for the object's address. -/
structure Task where
  id : Nat
  name : List Char
  description : List Char
  tags : List (List Char)
  status : TaskStatus
  priority : TaskPriority
deriving DecidableEq, Repr

/-- `Task::getStatusString` from `src/Task.cpp`. -/
def statusString : TaskStatus → List Char
  | .TODO => "To-Do".data
  | .IN_PROGRESS => "In Progress".data
  | .COMPLETED => "Completed".data

/-- `Task::getPriorityString` from `src/Task.cpp`. -/
def priorityString : TaskPriority → List Char
  | .LOW => "Low".data
  | .MEDIUM => "Medium".data
  | .HIGH => "High".data

/-- `std::tolower` on a byte in the C locale: ASCII capitals are shifted
down by 32, every other value is unchanged. -/
def toLowerChar (c : Char) : Char :=
  if 65 ≤ c.toNat ∧ c.toNat ≤ 90 then Char.ofNat (c.toNat + 32) else c

/-- `Utils::toLowerCase` from `src/utils.cpp`. -/
def toLowerCase (s : List Char) : List Char := s.map toLowerChar

/-- `TaskSearchIndex::TrieNode` from `include/TaskSearchIndex.hpp`: children
keyed by character plus a list of back-references.  The `unordered_map` is
embedded as an association list. -/
inductive Trie where
  | node (tasks : List Task) (children : List (Char × Trie)) : Trie

/-- The back-reference list of a node. -/
def Trie.tasks : Trie → List Task
  | .node ts _ => ts

/-- The child map of a node. -/
def Trie.children : Trie → List (Char × Trie)
  | .node _ ch => ch

/-- A freshly constructed `TrieNode`. -/
def Trie.empty : Trie := .node [] []

/-- Lookup in the child map (`children.find(c)`). -/
def getChild : List (Char × Trie) → Char → Option Trie
  | [], _ => none
  | (d, t) :: rest, c => if d = c then some t else getChild rest c

/-- Store a child under a key (`children[c] = ...`): replace the binding if
the key is present, append it otherwise. -/
def setChild : List (Char × Trie) → Char → Trie → List (Char × Trie)
  | [], c, t => [(c, t)]
  | (d, u) :: rest, c, t =>
      if d = c then (c, t) :: rest else (d, u) :: setChild rest c t

/-- One inner iteration of `TaskSearchIndex::indexString`: walk/create the
child chain for the given characters (each folded by `std::tolower`) and at
the terminal node append a back-reference to the task unless one with the
same identity is already listed. -/
def insertChain : Trie → List Char → Task → Trie
  | .node ts ch, [], t =>
      .node (if ts.any (fun u => u.id == t.id) then ts else ts ++ [t]) ch
  | .node ts ch, c :: rest, t =>
      let lc := toLowerChar c
      let child := (getChild ch lc).getD Trie.empty
      .node ts (setChild ch lc (insertChain child rest t))

/-- One inner iteration of `TaskSearchIndex::removeStringFromIndex`: follow
existing edges for the given characters, stopping (without error) at the
first missing edge, and erase every back-reference with the task's identity
from the node reached. -/
def eraseChain : Trie → List Char → Task → Trie
  | .node ts ch, [], t => .node (ts.filter (fun u => u.id != t.id)) ch
  | .node ts ch, c :: rest, t =>
      match getChild ch (toLowerChar c) with
      | none => .node (ts.filter (fun u => u.id != t.id)) ch
      | some child =>
          .node ts (setChild ch (toLowerChar c) (eraseChain child rest t))

/-- `TaskSearchIndex::findNode`: walk the trie one character at a time
(each folded by `std::tolower`); missing edge means no match. -/
def findNode : Trie → List Char → Option Trie
  | tr, [] => some tr
  | .node _ ch, c :: rest =>
      match getChild ch (toLowerChar c) with
      | none => none
      | some child => findNode child rest

mutual

/-- `TaskSearchIndex::collectAllTasks`: every back-reference of the subtree
in depth-first preorder, duplicates included. -/
def Trie.collectAll : Trie → List Task
  | .node ts ch => ts ++ collectAllKids ch

/-- The recursion of `collectAllTasks` over a node's child list. -/
def collectAllKids : List (Char × Trie) → List Task
  | [] => []
  | (_, t) :: rest => t.collectAll ++ collectAllKids rest

end

/-- First-occurrence de-duplication by task identity with an explicit seen
set, as performed online by the `unordered_set<const Task*>` filters in
`src/TaskSearchIndex.cpp`. -/
def dedupByIdAux : List Task → List Nat → List Task
  | [], _ => []
  | t :: r, seen =>
      if t.id ∈ seen then dedupByIdAux r seen
      else t :: dedupByIdAux r (t.id :: seen)

/-- De-duplication starting from an empty seen set. -/
def dedupById (l : List Task) : List Task := dedupByIdAux l []

/-- `TaskSearchIndex::collectTasks`: depth-first collection from a node with
online de-duplication by identity — the first-occurrence de-duplication of
the preorder back-reference list. -/
def collectTasks (n : Trie) : List Task := dedupById n.collectAll

/-- The state of `TaskSearchIndex` (`include/TaskSearchIndex.hpp`): the root
node and the `total_indexed_tasks_` counter. -/
structure TaskSearchIndex where
  root : Trie
  total_indexed_tasks : Nat

/-- A freshly constructed `TaskSearchIndex`. -/
def TaskSearchIndex.emptyIndex : TaskSearchIndex := ⟨Trie.empty, 0⟩

/-- `TaskSearchIndex::indexString`: insert the chain of every start offset of
the string, associating the task with each terminal node. -/
def indexString (root : Trie) (s : List Char) (t : Task) : Trie :=
  if s = [] then root
  else (List.range s.length).foldl (fun r start => insertChain r (s.drop start) t) root

/-- `TaskSearchIndex::removeStringFromIndex`: erase the task's identity at
the node reached by each start-offset chain of the string. -/
def removeStringFromIndex (root : Trie) (s : List Char) (t : Task) : Trie :=
  if s = [] then root
  else (List.range s.length).foldl (fun r start => eraseChain r (s.drop start) t) root

/-- `TaskSearchIndex::addTask`: index the lowercased name, the description if
non-empty, every tag, and the status and priority labels; then increment the
record counter. -/
def TaskSearchIndex.addTask (idx : TaskSearchIndex) (t : Task) : TaskSearchIndex :=
  let r := indexString idx.root (toLowerCase t.name) t
  let r := if t.description = [] then r else indexString r (toLowerCase t.description) t
  let r := t.tags.foldl (fun r tag => indexString r (toLowerCase tag) t) r
  let r := indexString r (toLowerCase (statusString t.status)) t
  let r := indexString r (toLowerCase (priorityString t.priority)) t
  ⟨r, idx.total_indexed_tasks + 1⟩

/-- `TaskSearchIndex::removeTask`: erase the task's identity along the same
strings `addTask` would index, then decrement the counter if positive. -/
def TaskSearchIndex.removeTask (idx : TaskSearchIndex) (t : Task) : TaskSearchIndex :=
  let r := removeStringFromIndex idx.root (toLowerCase t.name) t
  let r := if t.description = [] then r else removeStringFromIndex r (toLowerCase t.description) t
  let r := t.tags.foldl (fun r tag => removeStringFromIndex r (toLowerCase tag) t) r
  let r := removeStringFromIndex r (toLowerCase (statusString t.status)) t
  let r := removeStringFromIndex r (toLowerCase (priorityString t.priority)) t
  ⟨r, if 0 < idx.total_indexed_tasks then idx.total_indexed_tasks - 1
      else idx.total_indexed_tasks⟩

/-- `TaskSearchIndex::clear`: fresh root, counter reset to zero. -/
def TaskSearchIndex.clear (_idx : TaskSearchIndex) : TaskSearchIndex :=
  ⟨Trie.empty, 0⟩

/-- `TaskSearchIndex::searchPrefix`: empty query fails closed; otherwise
lowercase the query, walk to its node and collect the subtree with
de-duplication. -/
def TaskSearchIndex.searchPrefix (idx : TaskSearchIndex) (p : List Char) : List Task :=
  if p = [] then []
  else
    match findNode idx.root (toLowerCase p) with
    | none => []
    | some n => collectTasks n

/-- C++ `haystack.find(needle) != npos`: the needle occurs contiguously in
the haystack. -/
def containsSub (needle hay : List Char) : Bool :=
  (List.range (hay.length + 1)).any (fun i => needle.isPrefixOf (hay.drop i))

/-- The per-task filter of `TaskSearchIndex::searchSubstring`: the lowercased
query occurs in the lowercased name, description, or some lowercased tag. -/
def taskMatchesSub (t : Task) (q : List Char) : Bool :=
  containsSub q (toLowerCase t.name) || containsSub q (toLowerCase t.description) ||
    t.tags.any (fun tag => containsSub q (toLowerCase tag))

/-- `TaskSearchIndex::searchSubstring`: empty query fails closed; otherwise
collect every back-reference of the whole trie, de-duplicate by identity in
first-occurrence order, and keep the tasks whose name, description or a tag
contains the lowercased query. -/
def TaskSearchIndex.searchSubstring (idx : TaskSearchIndex) (s : List Char) : List Task :=
  if s = [] then []
  else (dedupById idx.root.collectAll).filter (fun t => taskMatchesSub t (toLowerCase s))

/-- The index-level operations available to a client, for stating properties
of every reachable index state. -/
inductive IndexOp where
  | add (t : Task)
  | remove (t : Task)
  | clear

/-- Apply one index operation. -/
def applyOp (idx : TaskSearchIndex) : IndexOp → TaskSearchIndex
  | .add t => idx.addTask t
  | .remove t => idx.removeTask t
  | .clear => idx.clear

/-- Apply a sequence of index operations, first one first. -/
def applyOps (idx : TaskSearchIndex) (ops : List IndexOp) : TaskSearchIndex :=
  ops.foldl applyOp idx

/-- `Task::addTag` from `src/Task.cpp`: append the tag only when it is
non-empty and not already present. -/
def Task.addTag (t : Task) (tag : List Char) : Task :=
  if tag ≠ [] ∧ tag ∉ t.tags then { t with tags := t.tags ++ [tag] } else t

/-- The state of the `Tasks` record store (`include/Tasks.hpp`) that the
dirty-flag claims are about: the task collection, the id counter, the search
index and the `index_dirty_` flag.  File persistence is external. -/
structure TasksStore where
  tasks : List Task
  nextId : Nat
  search_index : TaskSearchIndex
  index_dirty : Bool

/-- The `Tasks` constructor: tasks come from `loadFromFile`, the index is
freshly constructed, and `index_dirty_` keeps its `true` initializer. -/
def TasksStore.mkStore (loaded : List Task) (nid : Nat) : TasksStore :=
  ⟨loaded, nid, TaskSearchIndex.emptyIndex, true⟩

/-- `Tasks::addTask` (both overloads; the basic one passes an empty
description and no tags): a new task gets the next id, its description, and
the tags through `Task::addTag`; an empty name makes the constructor throw,
which the catch block turns into no mutation at all. -/
def TasksStore.addNewTask (s : TasksStore) (name desc : List Char)
    (st : TaskStatus) (pr : TaskPriority) (tags : List (List Char)) : TasksStore :=
  if name = [] then s
  else
    let base : Task := ⟨s.nextId, name, desc, [], st, pr⟩
    let t := tags.foldl Task.addTag base
    { s with tasks := s.tasks ++ [t], nextId := s.nextId + 1, index_dirty := true }

/-- Erase the first task with the given id (`std::ranges::find_if` followed
by `erase` in `Tasks::removeTask`). -/
def removeFirstTask : List Task → Nat → List Task
  | [], _ => []
  | t :: r, i => if t.id = i then r else t :: removeFirstTask r i

/-- `Tasks::removeTask`: erase the first task with the id and mark the index
dirty; an unknown id only yields an error result. -/
def TasksStore.removeTaskById (s : TasksStore) (i : Nat) : TasksStore :=
  if s.tasks.any (fun t => t.id == i) then
    { s with tasks := removeFirstTask s.tasks i, index_dirty := true }
  else s

/-- `Tasks::removeAllTasks`: clear the collection and mark the index dirty;
an already-empty collection only yields an error result. -/
def TasksStore.removeAllTasks (s : TasksStore) : TasksStore :=
  if s.tasks = [] then s
  else { s with tasks := [], index_dirty := true }

/-- Replace the first task with the given id using the update function. -/
def updateFirstTask : List Task → Nat → (Task → Task) → List Task
  | [], _, _ => []
  | t :: r, i, f => if t.id = i then f t :: r else t :: updateFirstTask r i f

/-- `Tasks::updateTask`: on a found id, set name, status and priority and
mark the index dirty; `Task::setName` throws on an empty name before any
field has changed, so the catch block leaves the store unchanged. -/
def TasksStore.updateTask (s : TasksStore) (i : Nat) (name : List Char)
    (st : TaskStatus) (pr : TaskPriority) : TasksStore :=
  if s.tasks.any (fun t => t.id == i) then
    if name = [] then s
    else
      { s with
        tasks := updateFirstTask s.tasks i
          (fun t => { t with name := name, status := st, priority := pr }),
        index_dirty := true }
  else s

/-- `Tasks::rebuildSearchIndex`: return immediately when the flag is clean;
otherwise clear the index, re-add every current task, and clear the flag. -/
def TasksStore.rebuildSearchIndex (s : TasksStore) : TasksStore :=
  if s.index_dirty then
    { s with
      search_index := s.tasks.foldl TaskSearchIndex.addTask s.search_index.clear,
      index_dirty := false }
  else s

/-- Insertion of a task into a list sorted by ascending id. -/
def insertById (t : Task) : List Task → List Task
  | [] => [t]
  | u :: r => if t.id ≤ u.id then t :: u :: r else u :: insertById t r

/-- Sort by ascending id (`std::ranges::sort` with the id comparator in
`Tasks::advancedSearch`). -/
def sortById : List Task → List Task
  | [] => []
  | t :: r => insertById t (sortById r)

/-- `std::unique`: collapse adjacent duplicates, keeping the first of each
run; duplicates are by pointer identity, embedded as id equality. -/
def dedupAdjById : List Task → List Task
  | [] => []
  | [t] => [t]
  | a :: b :: r => if a.id == b.id then dedupAdjById (a :: r) else a :: dedupAdjById (b :: r)

/-- `Tasks::advancedSearch`: empty query fails closed before any rebuild;
otherwise rebuild if dirty, run the index's search, keep only references
resolvable in the collection, sort by id and collapse duplicates.  The
mutable-field updates of the `const` method are returned as the new store. -/
def TasksStore.advancedSearch (s : TasksStore) (q : List Char) :
    TasksStore × List Task :=
  if q = [] then (s, [])
  else
    let s' := s.rebuildSearchIndex
    let refs := s'.search_index.searchPrefix q
    let present := refs.filter (fun t => s'.tasks.any (fun u => u.id == t.id))
    (s', dedupAdjById (sortById present))

/-! ### Raw chain operations

`insertChain`, `eraseChain` and `findNode` each fold every character through
`std::tolower` while walking.  The raw versions below take the already
folded characters; the bridge lemmas state that the source-shaped functions
are the raw ones applied to the lowercased path. -/

/-- `insertChain` on already-lowercased characters. -/
def insertRaw : Trie → List Char → Task → Trie
  | .node ts ch, [], t =>
      .node (if ts.any (fun u => u.id == t.id) then ts else ts ++ [t]) ch
  | .node ts ch, c :: rest, t =>
      let child := (getChild ch c).getD Trie.empty
      .node ts (setChild ch c (insertRaw child rest t))

/-- `eraseChain` on already-lowercased characters. -/
def eraseRaw : Trie → List Char → Task → Trie
  | .node ts ch, [], t => .node (ts.filter (fun u => u.id != t.id)) ch
  | .node ts ch, c :: rest, t =>
      match getChild ch c with
      | none => .node (ts.filter (fun u => u.id != t.id)) ch
      | some child => .node ts (setChild ch c (eraseRaw child rest t))

/-- `findNode` on already-lowercased characters. -/
def walkRaw : Trie → List Char → Option Trie
  | tr, [] => some tr
  | .node _ ch, c :: rest =>
      match getChild ch c with
      | none => none
      | some child => walkRaw child rest

theorem insertChain_eq_raw (tr : Trie) (cs : List Char) (t : Task) :
    insertChain tr cs t = insertRaw tr (cs.map toLowerChar) t := by
  induction cs generalizing tr with
  | nil => cases tr <;> rfl
  | cons c rest ih => cases tr with
    | node ts ch => simp only [insertChain, insertRaw, List.map_cons, ih]

theorem eraseChain_eq_raw (tr : Trie) (cs : List Char) (t : Task) :
    eraseChain tr cs t = eraseRaw tr (cs.map toLowerChar) t := by
  induction cs generalizing tr with
  | nil => cases tr <;> rfl
  | cons c rest ih => cases tr with
    | node ts ch =>
      simp only [eraseChain, eraseRaw, List.map_cons]
      cases getChild ch (toLowerChar c) <;> simp [ih]

theorem findNode_eq_raw (tr : Trie) (p : List Char) :
    findNode tr p = walkRaw tr (p.map toLowerChar) := by
  induction p generalizing tr with
  | nil => cases tr <;> rfl
  | cons c rest ih => cases tr with
    | node ts ch =>
      simp only [findNode, walkRaw, List.map_cons]
      cases getChild ch (toLowerChar c) <;> simp [ih]

/-! ### Child-map lemmas -/

theorem getChild_setChild_self (ch : List (Char × Trie)) (c : Char) (v : Trie) :
    getChild (setChild ch c v) c = some v := by
  induction ch with
  | nil => simp [setChild, getChild]
  | cons p rest ih =>
    obtain ⟨d, u⟩ := p
    by_cases h : d = c <;> simp [setChild, getChild, h, ih]

theorem getChild_setChild_ne (ch : List (Char × Trie)) {c d : Char} (v : Trie)
    (h : d ≠ c) : getChild (setChild ch c v) d = getChild ch d := by
  have hcd : ¬ c = d := fun hh => h hh.symm
  induction ch with
  | nil => simp [setChild, getChild, hcd]
  | cons p rest ih =>
    obtain ⟨e, u⟩ := p
    by_cases he : e = c
    · subst he
      simp [setChild, getChild, hcd]
    · by_cases hd : e = d
      · subst hd
        simp [setChild, getChild, he]
      · simp [setChild, getChild, he, hd, ih]

theorem setChild_getChild_self {ch : List (Char × Trie)} {c : Char} {v : Trie}
    (h : getChild ch c = some v) : setChild ch c v = ch := by
  induction ch with
  | nil => simp [getChild] at h
  | cons p rest ih =>
    obtain ⟨d, u⟩ := p
    by_cases hd : d = c
    · subst hd
      simp [getChild] at h
      simp [setChild, h]
    · simp [getChild, hd] at h
      simp [setChild, hd, ih h]

/-! ### Path-walk lemmas -/

theorem walkRaw_nil (tr : Trie) : walkRaw tr [] = some tr := by
  cases tr
  rfl

theorem walkRaw_cons (tr : Trie) (c : Char) (p : List Char) :
    walkRaw tr (c :: p) =
      match getChild tr.children c with
      | none => none
      | some child => walkRaw child p := by
  cases tr <;> rfl

theorem walkRaw_append (tr : Trie) (p q : List Char) :
    walkRaw tr (p ++ q) = (walkRaw tr p).bind (fun n => walkRaw n q) := by
  induction p generalizing tr with
  | nil => simp [walkRaw]
  | cons c rest ih =>
    cases tr with
    | node ts ch =>
      simp only [List.cons_append, walkRaw]
      cases getChild ch c <;> simp [ih]

/-- Membership of an identity at the node addressed by a raw path. -/
def memAt (tr : Trie) (p : List Char) (i : Nat) : Prop :=
  ∃ n, walkRaw tr p = some n ∧ ∃ u ∈ n.tasks, u.id = i

theorem memAt_nil (tr : Trie) (i : Nat) :
    memAt tr [] i ↔ ∃ u ∈ tr.tasks, u.id = i := by
  simp [memAt, walkRaw_nil]

theorem memAt_cons (tr : Trie) (c : Char) (p : List Char) (i : Nat) :
    memAt tr (c :: p) i ↔
      ∃ child, getChild tr.children c = some child ∧ memAt child p i := by
  cases tr with
  | node ts ch =>
    simp only [memAt, walkRaw, Trie.children]
    cases h : getChild ch c with
    | none => simp
    | some child => simp [memAt]

theorem memAt_empty_false (p : List Char) (i : Nat) : ¬ memAt Trie.empty p i := by
  cases p with
  | nil => simp [Trie.empty, memAt_nil, Trie.tasks]
  | cons c rest => simp [Trie.empty, memAt_cons, Trie.children, getChild]

/-! ### The unfolding lemma and induction principle for the nested tree -/

theorem collectAllKids_eq : ∀ ch : List (Char × Trie),
    collectAllKids ch = (ch.map (fun p => p.2.collectAll)).flatten := by
  intro ch
  induction ch with
  | nil => rfl
  | cons p rest ih =>
    obtain ⟨c, t⟩ := p
    simp [collectAllKids, ih]

theorem collectAll_node (ts : List Task) (ch : List (Char × Trie)) :
    Trie.collectAll (.node ts ch) = ts ++ (ch.map (fun p => p.2.collectAll)).flatten := by
  rw [Trie.collectAll, collectAllKids_eq]

theorem trie_ind (P : Trie → Prop)
    (h : ∀ ts ch, (∀ p ∈ ch, P p.2) → P (Trie.node ts ch)) :
    ∀ tr, P tr
  | .node ts ch => h ts ch (fun p hp => trie_ind P h p.2)
decreasing_by
  obtain ⟨c, t⟩ := p
  have hs := List.sizeOf_lt_of_mem hp
  simp only [Prod.mk.sizeOf_spec] at hs
  simp only [Trie.node.sizeOf_spec]
  omega

/-! ### Well-formedness

The association list embedding of `std::unordered_map` can represent
duplicate keys, which the C++ map cannot.  `wf` states that every node's
child list has pairwise-distinct keys; every state the C++ code can build
satisfies it, and the operations preserve it. -/

mutual

/-- Every node of the tree binds each character at most once. -/
def wf : Trie → Bool
  | .node _ ch => decide ((ch.map Prod.fst).Nodup) && wfKids ch

/-- `wf` over a node's child list. -/
def wfKids : List (Char × Trie) → Bool
  | [] => true
  | (_, t) :: rest => wf t && wfKids rest

end

theorem wfKids_eq : ∀ ch : List (Char × Trie),
    wfKids ch = true ↔ ∀ p ∈ ch, wf p.2 = true := by
  intro ch
  induction ch with
  | nil => simp [wfKids]
  | cons p rest ih =>
    obtain ⟨c, t⟩ := p
    simp only [wfKids, Bool.and_eq_true, ih, List.forall_mem_cons]

theorem wf_node (ts : List Task) (ch : List (Char × Trie)) :
    wf (.node ts ch) = true ↔
      (ch.map Prod.fst).Nodup ∧ ∀ p ∈ ch, wf p.2 = true := by
  rw [wf]
  simp only [Bool.and_eq_true, decide_eq_true_eq, wfKids_eq]

theorem getChild_some_mem {ch : List (Char × Trie)} {c : Char} {child : Trie}
    (h : getChild ch c = some child) : (c, child) ∈ ch := by
  induction ch with
  | nil => simp [getChild] at h
  | cons p rest ih =>
    obtain ⟨d, u⟩ := p
    by_cases hd : d = c
    · subst hd
      simp [getChild] at h
      subst h
      exact List.mem_cons_self _ _
    · simp [getChild, hd] at h
      exact List.mem_cons_of_mem _ (ih h)

theorem getChild_of_nodupKeys {ch : List (Char × Trie)} {c : Char} {child : Trie}
    (hnd : (ch.map Prod.fst).Nodup) (h : (c, child) ∈ ch) :
    getChild ch c = some child := by
  induction ch with
  | nil => cases h
  | cons p rest ih =>
    obtain ⟨d, u⟩ := p
    simp only [List.map_cons, List.nodup_cons] at hnd
    rcases List.mem_cons.1 h with heq | hmem
    · cases heq
      simp [getChild]
    · have hdc : d ≠ c := by
        intro hdc
        subst hdc
        exact hnd.1 (List.mem_map.2 ⟨(d, child), hmem, rfl⟩)
      simp [getChild, hdc]
      exact ih hnd.2 hmem

/-- A back-reference occurs in the preorder collection of a subtree exactly
when it sits at some node of that subtree (the forward direction uses
well-formedness; the backward one is unconditional). -/
theorem mem_collectAll_iff {u : Task} : ∀ {tr : Trie}, wf tr = true →
    (u ∈ tr.collectAll ↔ ∃ p n, walkRaw tr p = some n ∧ u ∈ n.tasks) := by
  intro tr
  induction tr using trie_ind with
  | h ts ch ih =>
    intro hwf
    rw [wf_node] at hwf
    rw [collectAll_node]
    constructor
    · intro hmem
      rcases List.mem_append.1 hmem with hts | hflat
      · exact ⟨[], _, walkRaw_nil _, hts⟩
      · rw [List.mem_flatten] at hflat
        obtain ⟨l, hl, hul⟩ := hflat
        rw [List.mem_map] at hl
        obtain ⟨⟨c, sub⟩, hpch, rfl⟩ := hl
        obtain ⟨p, n, hwalk, hn⟩ := (ih _ hpch (hwf.2 _ hpch)).1 hul
        refine ⟨c :: p, n, ?_, hn⟩
        rw [walkRaw_cons]
        simp only [Trie.children]
        rw [getChild_of_nodupKeys hwf.1 hpch]
        exact hwalk
    · rintro ⟨p, n, hwalk, hn⟩
      cases p with
      | nil =>
        rw [walkRaw_nil] at hwalk
        cases hwalk
        exact List.mem_append.2 (Or.inl hn)
      | cons c rest =>
        rw [walkRaw_cons] at hwalk
        simp only [Trie.children] at hwalk
        cases hg : getChild ch c with
        | none => rw [hg] at hwalk; cases hwalk
        | some child =>
          rw [hg] at hwalk
          have hcm := getChild_some_mem hg
          refine List.mem_append.2 (Or.inr ?_)
          rw [List.mem_flatten]
          refine ⟨child.collectAll, ?_,
            (ih _ hcm (hwf.2 _ hcm)).2 ⟨rest, n, hwalk, hn⟩⟩
          rw [List.mem_map]
          exact ⟨(c, child), hcm, rfl⟩

/-- The backward direction of `mem_collectAll_iff`, with no well-formedness
assumption. -/
theorem mem_collectAll_of_memAt {u : Task} : ∀ {tr : Trie} {p : List Char} {n : Trie},
    walkRaw tr p = some n → u ∈ n.tasks → u ∈ tr.collectAll := by
  intro tr
  induction tr using trie_ind with
  | h ts ch ih =>
    intro p n hwalk hn
    cases p with
    | nil =>
      rw [walkRaw_nil] at hwalk
      cases hwalk
      rw [collectAll_node]
      exact List.mem_append.2 (Or.inl hn)
    | cons c rest =>
      rw [walkRaw_cons] at hwalk
      simp only [Trie.children] at hwalk
      cases hg : getChild ch c with
      | none => rw [hg] at hwalk; cases hwalk
      | some child =>
        rw [hg] at hwalk
        have hcm := getChild_some_mem hg
        rw [collectAll_node]
        refine List.mem_append.2 (Or.inr ?_)
        rw [List.mem_flatten]
        refine ⟨child.collectAll, ?_, ih _ hcm hwalk hn⟩
        rw [List.mem_map]
        exact ⟨(c, child), hcm, rfl⟩

/-! ### Insertion and membership -/

theorem insertRaw_memAt_self : ∀ (cs : List Char) (tr : Trie) (t : Task),
    memAt (insertRaw tr cs t) cs t.id := by
  intro cs
  induction cs with
  | nil =>
    intro tr t
    cases tr with
    | node ts ch =>
      simp only [insertRaw, memAt_nil, Trie.tasks]
      by_cases h : ts.any (fun u => u.id == t.id)
      · rw [if_pos h]
        obtain ⟨u, hu, hid⟩ := List.any_eq_true.1 h
        exact ⟨u, hu, by simpa using hid⟩
      · rw [if_neg h]
        exact ⟨t, List.mem_append_right _ (List.mem_singleton.2 rfl), rfl⟩
  | cons c rest ih =>
    intro tr t
    cases tr with
    | node ts ch =>
      simp only [insertRaw, memAt_cons, Trie.children]
      exact ⟨_, getChild_setChild_self _ _ _, ih _ t⟩

theorem insertRaw_memAt_mono : ∀ (cs : List Char) (tr : Trie) (t : Task)
    (p : List Char) (i : Nat), memAt tr p i → memAt (insertRaw tr cs t) p i := by
  intro cs
  induction cs with
  | nil =>
    intro tr t p i h
    cases tr with
    | node ts ch =>
      cases p with
      | nil =>
        rw [memAt_nil] at h ⊢
        simp only [Trie.tasks] at h
        obtain ⟨u, hu, hid⟩ := h
        simp only [insertRaw, Trie.tasks]
        refine ⟨u, ?_, hid⟩
        split
        · exact hu
        · exact List.mem_append_left _ hu
      | cons d q =>
        rw [memAt_cons] at h ⊢
        simpa only [insertRaw, Trie.children] using h
  | cons c rest ih =>
    intro tr t p i h
    cases tr with
    | node ts ch =>
      cases p with
      | nil =>
        rw [memAt_nil] at h ⊢
        simpa only [insertRaw, Trie.tasks] using h
      | cons d q =>
        rw [memAt_cons] at h ⊢
        obtain ⟨child0, hg, hm⟩ := h
        simp only [insertRaw, Trie.children] at *
        by_cases hdc : d = c
        · subst hdc
          refine ⟨_, getChild_setChild_self _ _ _, ?_⟩
          rw [hg]
          exact ih _ t q i hm
        · exact ⟨child0, by rw [getChild_setChild_ne _ _ hdc]; exact hg, hm⟩

theorem insertRaw_memAt_inv : ∀ (cs : List Char) (tr : Trie) (t : Task)
    (p : List Char) (i : Nat),
    memAt (insertRaw tr cs t) p i → memAt tr p i ∨ (p = cs ∧ i = t.id) := by
  intro cs
  induction cs with
  | nil =>
    intro tr t p i h
    cases tr with
    | node ts ch =>
      cases p with
      | nil =>
        rw [memAt_nil] at h ⊢
        simp only [insertRaw, Trie.tasks] at h
        simp only [Trie.tasks]
        obtain ⟨u, hu, hid⟩ := h
        revert hu
        split
        · exact fun hu => Or.inl ⟨u, hu, hid⟩
        · intro hu
          rcases List.mem_append.1 hu with hts | hsing
          · exact Or.inl ⟨u, hts, hid⟩
          · rw [List.mem_singleton] at hsing
            subst hsing
            exact Or.inr ⟨by trivial, hid.symm⟩
      | cons d q =>
        rw [memAt_cons] at h ⊢
        exact Or.inl (by simpa only [insertRaw, Trie.children] using h)
  | cons c rest ih =>
    intro tr t p i h
    cases tr with
    | node ts ch =>
      cases p with
      | nil =>
        rw [memAt_nil] at h ⊢
        exact Or.inl (by simpa only [insertRaw, Trie.tasks] using h)
      | cons d q =>
        rw [memAt_cons] at h
        obtain ⟨child', hg, hm⟩ := h
        simp only [insertRaw, Trie.children] at hg
        by_cases hdc : d = c
        · subst hdc
          rw [getChild_setChild_self] at hg
          cases hg
          rcases ih _ t q i hm with hin | ⟨hq, hi⟩
          · cases hgc : getChild ch d with
            | none =>
              rw [hgc] at hin
              exact absurd hin (memAt_empty_false q i)
            | some child0 =>
              rw [hgc] at hin
              exact Or.inl ((memAt_cons _ _ _ _).2 ⟨child0, hgc, hin⟩)
          · exact Or.inr ⟨by rw [hq], hi⟩
        · rw [getChild_setChild_ne _ _ hdc] at hg
          exact Or.inl ((memAt_cons _ _ _ _).2 ⟨child', hg, hm⟩)

/-! ### Erasure and membership -/

theorem eraseRaw_memAt_mono : ∀ (cs : List Char) (tr : Trie) (t : Task)
    (p : List Char) (i : Nat), i ≠ t.id → memAt tr p i →
    memAt (eraseRaw tr cs t) p i := by
  intro cs
  induction cs with
  | nil =>
    intro tr t p i hne h
    cases tr with
    | node ts ch =>
      cases p with
      | nil =>
        rw [memAt_nil] at h ⊢
        simp only [Trie.tasks] at h
        obtain ⟨u, hu, hid⟩ := h
        simp only [eraseRaw, Trie.tasks]
        exact ⟨u, List.mem_filter.2 ⟨hu, by simp [hid, hne]⟩, hid⟩
      | cons d q =>
        rw [memAt_cons] at h ⊢
        simpa only [eraseRaw, Trie.children] using h
  | cons c rest ih =>
    intro tr t p i hne h
    cases tr with
    | node ts ch =>
      cases hgc : getChild ch c with
      | none =>
        cases p with
        | nil =>
          rw [memAt_nil] at h ⊢
          simp only [Trie.tasks] at h
          obtain ⟨u, hu, hid⟩ := h
          simp only [eraseRaw, hgc, Trie.tasks]
          exact ⟨u, List.mem_filter.2 ⟨hu, by simp [hid, hne]⟩, hid⟩
        | cons d q =>
          rw [memAt_cons] at h ⊢
          simpa only [eraseRaw, hgc, Trie.children] using h
      | some child =>
        cases p with
        | nil =>
          rw [memAt_nil] at h ⊢
          simpa only [eraseRaw, hgc, Trie.tasks] using h
        | cons d q =>
          rw [memAt_cons] at h ⊢
          obtain ⟨child0, hg, hm⟩ := h
          simp only [Trie.children] at hg
          simp only [eraseRaw, hgc, Trie.children]
          by_cases hdc : d = c
          · subst hdc
            rw [hgc] at hg
            cases hg
            exact ⟨_, getChild_setChild_self _ _ _, ih _ t q i hne hm⟩
          · exact ⟨child0, by rw [getChild_setChild_ne _ _ hdc]; exact hg, hm⟩

theorem eraseRaw_memAt_inv : ∀ (cs : List Char) (tr : Trie) (t : Task)
    (p : List Char) (i : Nat), memAt (eraseRaw tr cs t) p i → memAt tr p i := by
  intro cs
  induction cs with
  | nil =>
    intro tr t p i h
    cases tr with
    | node ts ch =>
      cases p with
      | nil =>
        rw [memAt_nil] at h ⊢
        simp only [eraseRaw, Trie.tasks] at h
        simp only [Trie.tasks]
        obtain ⟨u, hu, hid⟩ := h
        exact ⟨u, (List.mem_filter.1 hu).1, hid⟩
      | cons d q =>
        rw [memAt_cons] at h ⊢
        simpa only [eraseRaw, Trie.children] using h
  | cons c rest ih =>
    intro tr t p i h
    cases tr with
    | node ts ch =>
      cases hgc : getChild ch c with
      | none =>
        cases p with
        | nil =>
          rw [memAt_nil] at h ⊢
          simp only [eraseRaw, hgc, Trie.tasks] at h
          simp only [Trie.tasks]
          obtain ⟨u, hu, hid⟩ := h
          exact ⟨u, (List.mem_filter.1 hu).1, hid⟩
        | cons d q =>
          rw [memAt_cons] at h ⊢
          simpa only [eraseRaw, hgc, Trie.children] using h
      | some child =>
        cases p with
        | nil =>
          rw [memAt_nil] at h ⊢
          simpa only [eraseRaw, hgc, Trie.tasks] using h
        | cons d q =>
          rw [memAt_cons] at h ⊢
          obtain ⟨child0, hg, hm⟩ := h
          simp only [eraseRaw, hgc, Trie.children] at hg
          simp only [Trie.children]
          by_cases hdc : d = c
          · subst hdc
            rw [getChild_setChild_self] at hg
            cases hg
            exact ⟨child, hgc, ih _ t q i hm⟩
          · rw [getChild_setChild_ne _ _ hdc] at hg
            exact ⟨child0, hg, hm⟩

theorem eraseRaw_kills : ∀ (cs : List Char) (tr : Trie) (t : Task),
    (walkRaw tr cs).isSome → ¬ memAt (eraseRaw tr cs t) cs t.id := by
  intro cs
  induction cs with
  | nil =>
    intro tr t _ h
    cases tr with
    | node ts ch =>
      rw [memAt_nil] at h
      simp only [eraseRaw, Trie.tasks] at h
      obtain ⟨u, hu, hid⟩ := h
      have := (List.mem_filter.1 hu).2
      simp [hid] at this
  | cons c rest ih =>
    intro tr t hsome h
    cases tr with
    | node ts ch =>
      rw [walkRaw_cons] at hsome
      simp only [Trie.children] at hsome
      cases hgc : getChild ch c with
      | none => rw [hgc] at hsome; simp at hsome
      | some child =>
        rw [hgc] at hsome
        rw [memAt_cons] at h
        obtain ⟨child', hg, hm⟩ := h
        simp only [eraseRaw, hgc, Trie.children] at hg
        rw [getChild_setChild_self] at hg
        cases hg
        exact ih child t hsome hm

theorem eraseRaw_walk_isSome : ∀ (cs : List Char) (tr : Trie) (t : Task)
    (p : List Char),
    (walkRaw (eraseRaw tr cs t) p).isSome = (walkRaw tr p).isSome := by
  intro cs
  induction cs with
  | nil =>
    intro tr t p
    cases tr with
    | node ts ch =>
      cases p with
      | nil => simp [eraseRaw, walkRaw_nil]
      | cons d q =>
        rw [walkRaw_cons, walkRaw_cons]
        simp only [eraseRaw, Trie.children]
  | cons c rest ih =>
    intro tr t p
    cases tr with
    | node ts ch =>
      cases hgc : getChild ch c with
      | none =>
        cases p with
        | nil => simp [eraseRaw, hgc, walkRaw_nil]
        | cons d q =>
          rw [walkRaw_cons, walkRaw_cons]
          simp only [eraseRaw, hgc, Trie.children]
      | some child =>
        cases p with
        | nil => simp [eraseRaw, hgc, walkRaw_nil]
        | cons d q =>
          rw [walkRaw_cons, walkRaw_cons]
          simp only [eraseRaw, hgc, Trie.children]
          by_cases hdc : d = c
          · subst hdc
            rw [getChild_setChild_self, hgc]
            exact ih child t q
          · rw [getChild_setChild_ne _ _ hdc]

/-! ### Chains: the raw paths an add/remove touches -/

/-- The raw (lowercased) paths of every start offset of a string. -/
def chainsOf (s : List Char) : List (List Char) :=
  (List.range s.length).map (fun k => (s.drop k).map toLowerChar)

/-- The strings `TaskSearchIndex::addTask` passes to `indexString`, in
order: lowercased name, lowercased description when non-empty, lowercased
tags, lowercased status and priority labels. -/
def indexableStrings (t : Task) : List (List Char) :=
  toLowerCase t.name ::
    ((if t.description = [] then [] else [toLowerCase t.description]) ++
      t.tags.map toLowerCase ++
      [toLowerCase (statusString t.status), toLowerCase (priorityString t.priority)])

/-- All raw paths at which `addTask` associates the task. -/
def allChains (t : Task) : List (List Char) :=
  (indexableStrings t).flatMap chainsOf

/-- Fold of raw insertions over a list of chains. -/
def insertChains (tr : Trie) (L : List (List Char)) (t : Task) : Trie :=
  L.foldl (fun r cs => insertRaw r cs t) tr

/-- Fold of raw erasures over a list of chains. -/
def eraseChains (tr : Trie) (L : List (List Char)) (t : Task) : Trie :=
  L.foldl (fun r cs => eraseRaw r cs t) tr

theorem insertChains_append (tr : Trie) (L1 L2 : List (List Char)) (t : Task) :
    insertChains tr (L1 ++ L2) t = insertChains (insertChains tr L1 t) L2 t :=
  List.foldl_append ..

theorem eraseChains_append (tr : Trie) (L1 L2 : List (List Char)) (t : Task) :
    eraseChains tr (L1 ++ L2) t = eraseChains (eraseChains tr L1 t) L2 t :=
  List.foldl_append ..

theorem insertChains_memAt_mono (t : Task) : ∀ (L : List (List Char))
    (tr : Trie) (p : List Char) (i : Nat), memAt tr p i →
    memAt (insertChains tr L t) p i := by
  intro L
  induction L with
  | nil => exact fun tr p i h => h
  | cons a tail ih =>
    intro tr p i h
    exact ih _ p i (insertRaw_memAt_mono a tr t p i h)

theorem insertChains_memAt_self (t : Task) : ∀ (L : List (List Char))
    (tr : Trie) (cs : List Char), cs ∈ L → memAt (insertChains tr L t) cs t.id := by
  intro L
  induction L with
  | nil => intro tr cs h; cases h
  | cons a tail ih =>
    intro tr cs h
    rcases List.mem_cons.1 h with rfl | hmem
    · exact insertChains_memAt_mono t tail _ cs t.id (insertRaw_memAt_self cs tr t)
    · exact ih _ cs hmem

theorem insertChains_memAt_inv (t : Task) : ∀ (L : List (List Char))
    (tr : Trie) (p : List Char) (i : Nat),
    memAt (insertChains tr L t) p i → memAt tr p i ∨ (p ∈ L ∧ i = t.id) := by
  intro L
  induction L with
  | nil => exact fun tr p i h => Or.inl h
  | cons a tail ih =>
    intro tr p i h
    rcases ih _ p i h with hin | ⟨hp, hi⟩
    · rcases insertRaw_memAt_inv a tr t p i hin with hin' | ⟨hp, hi⟩
      · exact Or.inl hin'
      · exact Or.inr ⟨by rw [hp]; exact List.mem_cons_self _ _, hi⟩
    · exact Or.inr ⟨List.mem_cons_of_mem _ hp, hi⟩

theorem eraseChains_memAt_mono (t : Task) : ∀ (L : List (List Char))
    (tr : Trie) (p : List Char) (i : Nat), i ≠ t.id → memAt tr p i →
    memAt (eraseChains tr L t) p i := by
  intro L
  induction L with
  | nil => exact fun tr p i _ h => h
  | cons a tail ih =>
    intro tr p i hne h
    exact ih _ p i hne (eraseRaw_memAt_mono a tr t p i hne h)

theorem eraseChains_memAt_inv (t : Task) : ∀ (L : List (List Char))
    (tr : Trie) (p : List Char) (i : Nat),
    memAt (eraseChains tr L t) p i → memAt tr p i := by
  intro L
  induction L with
  | nil => exact fun tr p i h => h
  | cons a tail ih =>
    intro tr p i h
    exact eraseRaw_memAt_inv a tr t p i (ih _ p i h)

theorem eraseChains_walk_isSome (t : Task) : ∀ (L : List (List Char))
    (tr : Trie) (p : List Char),
    (walkRaw (eraseChains tr L t) p).isSome = (walkRaw tr p).isSome := by
  intro L
  induction L with
  | nil => exact fun tr p => rfl
  | cons a tail ih =>
    intro tr p
    rw [show eraseChains tr (a :: tail) t = eraseChains (eraseRaw tr a t) tail t from rfl,
      ih, eraseRaw_walk_isSome]

/-- Erasing every chain in `L` removes the identity entirely, provided every
occurrence lies on a chain of `L` and every chain of `L` is a live path. -/
theorem eraseChains_kills (t : Task) : ∀ (L : List (List Char)) (tr : Trie),
    (∀ p, memAt tr p t.id → p ∈ L) → (∀ cs ∈ L, (walkRaw tr cs).isSome) →
    ∀ p, ¬ memAt (eraseChains tr L t) p t.id := by
  intro L
  induction L with
  | nil => exact fun tr hocc _ p h => absurd h (fun hh => (List.not_mem_nil p) (hocc p hh))
  | cons a tail ih =>
    intro tr hocc hlive p h
    have hstep : eraseChains tr (a :: tail) t = eraseChains (eraseRaw tr a t) tail t := rfl
    rw [hstep] at h
    refine ih (eraseRaw tr a t) ?_ ?_ p h
    · intro q hq
      have hq' := eraseRaw_memAt_inv a tr t q t.id hq
      rcases List.mem_cons.1 (hocc q hq') with rfl | hmem
      · exact absurd hq (eraseRaw_kills q tr t (hlive q (List.mem_cons_self _ _)))
      · exact hmem
    · intro cs hcs
      rw [eraseRaw_walk_isSome]
      exact hlive cs (List.mem_cons_of_mem _ hcs)

theorem indexString_eq (root : Trie) (s : List Char) (t : Task) :
    indexString root s t = insertChains root (chainsOf s) t := by
  unfold indexString insertChains chainsOf
  rw [List.foldl_map]
  simp only [insertChain_eq_raw]
  by_cases hs : s = []
  · subst hs
    simp
  · rw [if_neg hs]

theorem removeString_eq (root : Trie) (s : List Char) (t : Task) :
    removeStringFromIndex root s t = eraseChains root (chainsOf s) t := by
  unfold removeStringFromIndex eraseChains chainsOf
  rw [List.foldl_map]
  simp only [eraseChain_eq_raw]
  by_cases hs : s = []
  · subst hs
    simp
  · rw [if_neg hs]

theorem insertChains_nil (tr : Trie) (t : Task) : insertChains tr [] t = tr := rfl

theorem eraseChains_nil (tr : Trie) (t : Task) : eraseChains tr [] t = tr := rfl

theorem foldl_insertChains (t : Task) : ∀ (tags : List (List Char)) (r : Trie),
    tags.foldl (fun r tag => insertChains r (chainsOf (toLowerCase tag)) t) r
      = insertChains r ((tags.map toLowerCase).flatMap chainsOf) t := by
  intro tags
  induction tags with
  | nil => intro r; rfl
  | cons a tail ih =>
    intro r
    rw [List.foldl_cons, ih, List.map_cons, List.flatMap_cons, insertChains_append]

theorem foldl_eraseChains (t : Task) : ∀ (tags : List (List Char)) (r : Trie),
    tags.foldl (fun r tag => eraseChains r (chainsOf (toLowerCase tag)) t) r
      = eraseChains r ((tags.map toLowerCase).flatMap chainsOf) t := by
  intro tags
  induction tags with
  | nil => intro r; rfl
  | cons a tail ih =>
    intro r
    rw [List.foldl_cons, ih, List.map_cons, List.flatMap_cons, eraseChains_append]

theorem addTask_root (idx : TaskSearchIndex) (t : Task) :
    (idx.addTask t).root = insertChains idx.root (allChains t) t := by
  unfold TaskSearchIndex.addTask
  simp only [allChains, indexableStrings, List.flatMap_cons, List.flatMap_append,
    insertChains_append, indexString_eq, foldl_insertChains]
  by_cases hd : t.description = []
  · simp [hd, indexString_eq, insertChains_append, foldl_insertChains, insertChains_nil]
  · simp [hd, indexString_eq, insertChains_append, foldl_insertChains, insertChains_nil]

theorem removeTask_root (idx : TaskSearchIndex) (t : Task) :
    (idx.removeTask t).root = eraseChains idx.root (allChains t) t := by
  unfold TaskSearchIndex.removeTask
  simp only [allChains, indexableStrings, List.flatMap_cons, List.flatMap_append,
    eraseChains_append, removeString_eq, foldl_eraseChains]
  by_cases hd : t.description = []
  · simp [hd, removeString_eq, eraseChains_append, foldl_eraseChains, eraseChains_nil]
  · simp [hd, removeString_eq, eraseChains_append, foldl_eraseChains, eraseChains_nil]

theorem addTask_total (idx : TaskSearchIndex) (t : Task) :
    (idx.addTask t).total_indexed_tasks = idx.total_indexed_tasks + 1 := rfl

theorem removeTask_total (idx : TaskSearchIndex) (t : Task) :
    (idx.removeTask t).total_indexed_tasks =
      if 0 < idx.total_indexed_tasks then idx.total_indexed_tasks - 1
      else idx.total_indexed_tasks := rfl

/-! ### Preservation of well-formedness -/

theorem wf_empty : wf Trie.empty = true := by
  rw [Trie.empty, wf_node]
  simp

theorem mem_setChild : ∀ (ch : List (Char × Trie)) (c : Char) (v : Trie)
    (q : Char × Trie), q ∈ setChild ch c v → q ∈ ch ∨ q = (c, v) := by
  intro ch c v
  induction ch with
  | nil =>
    intro q hq
    simp [setChild] at hq
    exact Or.inr (by simp [hq])
  | cons p rest ih =>
    obtain ⟨d, u⟩ := p
    intro q hq
    by_cases hd : d = c
    · subst hd
      simp only [setChild, if_pos rfl] at hq
      rcases List.mem_cons.1 hq with rfl | hmem
      · exact Or.inr rfl
      · exact Or.inl (List.mem_cons_of_mem _ hmem)
    · simp only [setChild, if_neg hd] at hq
      rcases List.mem_cons.1 hq with rfl | hmem
      · exact Or.inl (List.mem_cons_self _ _)
      · rcases ih q hmem with h | h
        · exact Or.inl (List.mem_cons_of_mem _ h)
        · exact Or.inr h

theorem keys_setChild_sub : ∀ (ch : List (Char × Trie)) (c : Char) (v : Trie)
    (e : Char), e ∈ (setChild ch c v).map Prod.fst →
    e ∈ ch.map Prod.fst ∨ e = c := by
  intro ch c v e he
  rw [List.mem_map] at he
  obtain ⟨q, hq, rfl⟩ := he
  rcases mem_setChild ch c v q hq with h | h
  · exact Or.inl (List.mem_map.2 ⟨q, h, rfl⟩)
  · subst h
    exact Or.inr rfl

theorem keys_setChild_nodup : ∀ (ch : List (Char × Trie)) (c : Char) (v : Trie),
    (ch.map Prod.fst).Nodup → ((setChild ch c v).map Prod.fst).Nodup := by
  intro ch c v
  induction ch with
  | nil =>
    intro _
    simp [setChild]
  | cons p rest ih =>
    obtain ⟨d, u⟩ := p
    intro hnd
    simp only [List.map_cons, List.nodup_cons] at hnd
    by_cases hd : d = c
    · subst hd
      simp only [setChild, if_pos, List.map_cons, List.nodup_cons]
      simpa using hnd
    · simp only [setChild, if_neg hd, List.map_cons, List.nodup_cons]
      refine ⟨?_, ih hnd.2⟩
      intro hmem
      rcases keys_setChild_sub rest c v d hmem with h | h
      · exact hnd.1 h
      · exact hd h

theorem wf_insertRaw : ∀ (cs : List Char) (tr : Trie) (t : Task),
    wf tr = true → wf (insertRaw tr cs t) = true := by
  intro cs
  induction cs with
  | nil =>
    intro tr t hwf
    cases tr with
    | node ts ch =>
      rw [wf_node] at hwf
      simp only [insertRaw]
      rw [wf_node]
      exact hwf
  | cons c rest ih =>
    intro tr t hwf
    cases tr with
    | node ts ch =>
      rw [wf_node] at hwf
      simp only [insertRaw]
      rw [wf_node]
      refine ⟨keys_setChild_nodup ch c _ hwf.1, ?_⟩
      intro q hq
      rcases mem_setChild ch c _ q hq with h | h
      · exact hwf.2 q h
      · subst h
        refine ih _ t ?_
        cases hgc : getChild ch c with
        | none => simpa [hgc] using wf_empty
        | some child => simpa [hgc] using hwf.2 _ (getChild_some_mem hgc)

theorem wf_eraseRaw : ∀ (cs : List Char) (tr : Trie) (t : Task),
    wf tr = true → wf (eraseRaw tr cs t) = true := by
  intro cs
  induction cs with
  | nil =>
    intro tr t hwf
    cases tr with
    | node ts ch =>
      rw [wf_node] at hwf
      simp only [eraseRaw]
      rw [wf_node]
      exact hwf
  | cons c rest ih =>
    intro tr t hwf
    cases tr with
    | node ts ch =>
      rw [wf_node] at hwf
      cases hgc : getChild ch c with
      | none =>
        simp only [eraseRaw, hgc]
        rw [wf_node]
        exact hwf
      | some child =>
        simp only [eraseRaw, hgc]
        rw [wf_node]
        refine ⟨keys_setChild_nodup ch c _ hwf.1, ?_⟩
        intro q hq
        rcases mem_setChild ch c _ q hq with h | h
        · exact hwf.2 q h
        · subst h
          exact ih _ t (hwf.2 _ (getChild_some_mem hgc))

theorem wf_insertChains : ∀ (L : List (List Char)) (tr : Trie) (t : Task),
    wf tr = true → wf (insertChains tr L t) = true := by
  intro L
  induction L with
  | nil => exact fun tr t h => h
  | cons a tail ih => exact fun tr t h => ih _ t (wf_insertRaw a tr t h)

theorem wf_eraseChains : ∀ (L : List (List Char)) (tr : Trie) (t : Task),
    wf tr = true → wf (eraseChains tr L t) = true := by
  intro L
  induction L with
  | nil => exact fun tr t h => h
  | cons a tail ih => exact fun tr t h => ih _ t (wf_eraseRaw a tr t h)

theorem wf_walk : ∀ (p : List Char) (tr : Trie) (n : Trie),
    wf tr = true → walkRaw tr p = some n → wf n = true := by
  intro p
  induction p with
  | nil =>
    intro tr n hwf hwalk
    rw [walkRaw_nil] at hwalk
    cases hwalk
    exact hwf
  | cons c rest ih =>
    intro tr n hwf hwalk
    cases tr with
    | node ts ch =>
      rw [walkRaw_cons] at hwalk
      simp only [Trie.children] at hwalk
      cases hgc : getChild ch c with
      | none => rw [hgc] at hwalk; cases hwalk
      | some child =>
        rw [hgc] at hwalk
        rw [wf_node] at hwf
        exact ih child n (hwf.2 _ (getChild_some_mem hgc)) hwalk

/-! ### De-duplication lemmas -/

theorem dedupByIdAux_subset : ∀ (l : List Task) (seen : List Nat) (u : Task),
    u ∈ dedupByIdAux l seen → u ∈ l := by
  intro l
  induction l with
  | nil => intro seen u h; simp [dedupByIdAux] at h
  | cons t r ih =>
    intro seen u h
    simp only [dedupByIdAux] at h
    by_cases hs : t.id ∈ seen
    · rw [if_pos hs] at h
      exact List.mem_cons_of_mem _ (ih seen u h)
    · rw [if_neg hs] at h
      rcases List.mem_cons.1 h with rfl | hmem
      · exact List.mem_cons_self _ _
      · exact List.mem_cons_of_mem _ (ih _ u hmem)

theorem dedupById_subset (l : List Task) (u : Task) (h : u ∈ dedupById l) : u ∈ l :=
  dedupByIdAux_subset l [] u h

theorem dedupByIdAux_exists_id : ∀ (l : List Task) (seen : List Nat) (i : Nat),
    (∃ u ∈ l, u.id = i) → i ∉ seen → ∃ u ∈ dedupByIdAux l seen, u.id = i := by
  intro l
  induction l with
  | nil =>
    intro seen i h _
    obtain ⟨u, hu, _⟩ := h
    cases hu
  | cons t r ih =>
    intro seen i h hns
    obtain ⟨u, hu, hid⟩ := h
    simp only [dedupByIdAux]
    by_cases hs : t.id ∈ seen
    · rw [if_pos hs]
      rcases List.mem_cons.1 hu with rfl | hmem
      · exact absurd hs (by rw [hid]; exact hns)
      · exact ih seen i ⟨u, hmem, hid⟩ hns
    · rw [if_neg hs]
      by_cases hti : t.id = i
      · exact ⟨t, List.mem_cons_self _ _, hti⟩
      · rcases List.mem_cons.1 hu with rfl | hmem
        · exact absurd hid hti
        · obtain ⟨v, hv, hvid⟩ := ih (t.id :: seen) i ⟨u, hmem, hid⟩ (by
            intro hin
            rcases List.mem_cons.1 hin with heq | hseen
            · exact hti heq.symm
            · exact hns hseen)
          exact ⟨v, List.mem_cons_of_mem _ hv, hvid⟩

theorem dedupById_exists_id (l : List Task) (i : Nat)
    (h : ∃ u ∈ l, u.id = i) : ∃ u ∈ dedupById l, u.id = i :=
  dedupByIdAux_exists_id l [] i h (by simp)

theorem mem_dedupByIdAux_of_uniq : ∀ (l : List Task) (seen : List Nat) (u : Task),
    u ∈ l → (∀ v ∈ l, v.id = u.id → v = u) → u.id ∉ seen →
    u ∈ dedupByIdAux l seen := by
  intro l
  induction l with
  | nil => intro seen u h; cases h
  | cons t r ih =>
    intro seen u hu huniq hns
    simp only [dedupByIdAux]
    rcases List.mem_cons.1 hu with rfl | hmem
    · rw [if_neg hns]
      exact List.mem_cons_self _ _
    · by_cases hs : t.id ∈ seen
      · rw [if_pos hs]
        exact ih seen u hmem
          (fun v hv hvid => huniq v (List.mem_cons_of_mem _ hv) hvid) hns
      · rw [if_neg hs]
        by_cases hti : t.id = u.id
        · have heq : t = u := huniq t (List.mem_cons_self _ _) hti
          subst heq
          exact List.mem_cons_self _ _
        · refine List.mem_cons_of_mem _ (ih (t.id :: seen) u hmem
            (fun v hv hvid => huniq v (List.mem_cons_of_mem _ hv) hvid) ?_)
          intro hin
          rcases List.mem_cons.1 hin with heq | hseen
          · exact hti heq.symm
          · exact hns hseen

theorem mem_dedupById_of_uniq (l : List Task) (u : Task) (hu : u ∈ l)
    (huniq : ∀ v ∈ l, v.id = u.id → v = u) : u ∈ dedupById l :=
  mem_dedupByIdAux_of_uniq l [] u hu huniq (by simp)

/-! ### Case folding -/

theorem toNat_toLowerChar (c : Char) :
    (toLowerChar c).toNat =
      if 65 ≤ c.toNat ∧ c.toNat ≤ 90 then c.toNat + 32 else c.toNat := by
  unfold toLowerChar
  by_cases h : 65 ≤ c.toNat ∧ c.toNat ≤ 90
  · rw [if_pos h, if_pos h]
    unfold Char.ofNat
    rw [dif_pos (Or.inl (by omega))]
    rfl
  · rw [if_neg h, if_neg h]

theorem toLowerChar_idem (c : Char) : toLowerChar (toLowerChar c) = toLowerChar c := by
  by_cases hc : 65 ≤ c.toNat ∧ c.toNat ≤ 90
  · have h := toNat_toLowerChar c
    rw [if_pos hc] at h
    conv_lhs => rw [toLowerChar]
    rw [if_neg (by rw [h]; omega)]
  · have h : toLowerChar c = c := by
      rw [toLowerChar, if_neg hc]
    rw [h, h]

theorem toLowerCase_idem (s : List Char) : toLowerCase (toLowerCase s) = toLowerCase s := by
  simp [toLowerCase, List.map_map, Function.comp, toLowerChar_idem]

theorem toLowerCase_eq_nil (s : List Char) : toLowerCase s = [] ↔ s = [] := by
  simp [toLowerCase]

theorem findNode_toLowerCase (tr : Trie) (q : List Char) :
    findNode tr (toLowerCase q) = walkRaw tr (q.map toLowerChar) := by
  rw [findNode_eq_raw]
  have : (toLowerCase q).map toLowerChar = q.map toLowerChar := toLowerCase_idem q
  rw [this]

/-! ### Claim theorems -/

/-- C7.  Case insensitivity: for every index state and every query `q`,
`searchPrefix q` and `searchPrefix (lowercase q)` return identical result
lists; in particular `searchPrefix "HELLO"` and `searchPrefix "hello"` are
identical. -/
theorem C7_case_insensitive (idx : TaskSearchIndex) (q : List Char) :
    idx.searchPrefix q = idx.searchPrefix (toLowerCase q) ∧
      idx.searchPrefix "HELLO".data = idx.searchPrefix "hello".data := by
  have hgen : ∀ (r : List Char),
      idx.searchPrefix r = idx.searchPrefix (toLowerCase r) := by
    intro r
    unfold TaskSearchIndex.searchPrefix
    by_cases hr : r = []
    · subst hr
      rfl
    · rw [if_neg hr, if_neg (fun hh => hr ((toLowerCase_eq_nil r).1 hh)),
        toLowerCase_idem]
  refine ⟨hgen q, ?_⟩
  rw [hgen "HELLO".data]
  have : toLowerCase "HELLO".data = "hello".data := by decide
  rw [this]

/-- C6.  Counter semantics of `removeTask`: every call decrements the
counter by one when it is positive and leaves it at zero otherwise,
independently of the record argument and of whether anything was found;
equivalently the new counter is the truncated predecessor. -/
theorem C6_counter_decrement (idx : TaskSearchIndex) (t : Task) :
    (idx.removeTask t).total_indexed_tasks = idx.total_indexed_tasks - 1 ∧
      (0 < idx.total_indexed_tasks →
        (idx.removeTask t).total_indexed_tasks = idx.total_indexed_tasks - 1) ∧
      (idx.total_indexed_tasks = 0 →
        (idx.removeTask t).total_indexed_tasks = 0) := by
  rw [removeTask_total]
  refine ⟨?_, fun h => by rw [if_pos h], fun h => by simp [h]⟩
  by_cases h : 0 < idx.total_indexed_tasks
  · rw [if_pos h]
  · rw [if_neg h]
    omega

/-- Witness for C6 at a concrete input: a record that was never added still
decrements a positive counter (here the counter 1 left by adding a different
record). -/
theorem C6_counter_decrement_witness :
    ((TaskSearchIndex.emptyIndex.addTask
        ⟨1, "a".data, [], [], .TODO, .LOW⟩).removeTask
        ⟨2, "b".data, [], [], .TODO, .LOW⟩).total_indexed_tasks = 0 := by
  have h := (C6_counter_decrement
    (TaskSearchIndex.emptyIndex.addTask ⟨1, "a".data, [], [], .TODO, .LOW⟩)
    ⟨2, "b".data, [], [], .TODO, .LOW⟩).2.1 (by decide)
  simpa using h

/-- C10.  Prefix search results are not contained in substring search
results: with one completed task named "a", the query "comp" is found by
`searchPrefix` through the indexed status label "completed", while
`searchSubstring` filters on name, description and tags only and returns
nothing. -/
theorem C10_prefix_not_subset_substring :
    (∃ u ∈ (TaskSearchIndex.emptyIndex.addTask
        ⟨1, "a".data, [], [], .COMPLETED, .LOW⟩).searchPrefix "comp".data,
      u.id = 1) ∧
    (TaskSearchIndex.emptyIndex.addTask
        ⟨1, "a".data, [], [], .COMPLETED, .LOW⟩).searchSubstring "comp".data = [] := by
  decide

theorem insertRaw_id_of_memAt : ∀ (cs : List Char) (tr : Trie) (t : Task),
    memAt tr cs t.id → insertRaw tr cs t = tr := by
  intro cs
  induction cs with
  | nil =>
    intro tr t h
    cases tr with
    | node ts ch =>
      rw [memAt_nil] at h
      simp only [Trie.tasks] at h
      obtain ⟨u, hu, hid⟩ := h
      have hany : ts.any (fun u => u.id == t.id) = true :=
        List.any_eq_true.2 ⟨u, hu, by simpa using hid⟩
      simp only [insertRaw, if_pos hany]
  | cons c rest ih =>
    intro tr t h
    cases tr with
    | node ts ch =>
      rw [memAt_cons] at h
      obtain ⟨child0, hg, hm⟩ := h
      simp only [Trie.children] at hg
      simp only [insertRaw, hg, Option.getD_some, ih child0 t hm,
        setChild_getChild_self hg]

theorem insertChains_id (t : Task) : ∀ (L : List (List Char)) (tr : Trie),
    (∀ cs ∈ L, memAt tr cs t.id) → insertChains tr L t = tr := by
  intro L
  induction L with
  | nil => exact fun tr _ => rfl
  | cons a tail ih =>
    intro tr h
    have ha : insertRaw tr a t = tr :=
      insertRaw_id_of_memAt a tr t (h a (List.mem_cons_self _ _))
    show insertChains (insertRaw tr a t) tail t = tr
    rw [ha]
    exact ih tr (fun cs hcs => h cs (List.mem_cons_of_mem _ hcs))

theorem searchPrefix_root_congr {idx idx' : TaskSearchIndex}
    (h : idx.root = idx'.root) (q : List Char) :
    idx.searchPrefix q = idx'.searchPrefix q := by
  unfold TaskSearchIndex.searchPrefix
  rw [h]

theorem searchSubstring_root_congr {idx idx' : TaskSearchIndex}
    (h : idx.root = idx'.root) (q : List Char) :
    idx.searchSubstring q = idx'.searchSubstring q := by
  unfold TaskSearchIndex.searchSubstring
  rw [h]

/-- C4.  Idempotent add: adding the same record twice leaves the trie
exactly as after the first add (so no node's back-reference list gains a
duplicate entry), and every prefix or substring query returns the same
result list as after a single add. -/
theorem C4_add_idempotent (idx : TaskSearchIndex) (R : Task) :
    ((idx.addTask R).addTask R).root = (idx.addTask R).root ∧
      (∀ q, ((idx.addTask R).addTask R).searchPrefix q =
        (idx.addTask R).searchPrefix q) ∧
      (∀ q, ((idx.addTask R).addTask R).searchSubstring q =
        (idx.addTask R).searchSubstring q) := by
  have hall : ∀ cs ∈ allChains R, memAt (idx.addTask R).root cs R.id := by
    rw [addTask_root]
    exact fun cs hcs => insertChains_memAt_self R _ _ cs hcs
  have hroot : ((idx.addTask R).addTask R).root = (idx.addTask R).root := by
    rw [addTask_root (idx.addTask R) R]
    exact insertChains_id R _ _ hall
  exact ⟨hroot, fun q => searchPrefix_root_congr hroot q,
    fun q => searchSubstring_root_congr hroot q⟩

theorem isPrefixOf_append {xs ys : List Char} (h : xs.isPrefixOf ys = true) :
    ∃ zs, ys = xs ++ zs := by
  induction xs generalizing ys with
  | nil => exact ⟨ys, rfl⟩
  | cons x xt ih =>
    cases ys with
    | nil => simp [List.isPrefixOf] at h
    | cons y yt =>
      simp only [List.isPrefixOf, Bool.and_eq_true, beq_iff_eq] at h
      obtain ⟨zs, hzs⟩ := ih h.2
      exact ⟨zs, by rw [h.1, hzs]; rfl⟩

/-- One operation that neither clears nor removes the identity `i`
preserves `memAt` for `i`. -/
theorem applyOp_preserves_memAt (idx : TaskSearchIndex) (op : IndexOp)
    (p : List Char) (i : Nat)
    (hop : ∀ t, op = IndexOp.remove t → i ≠ t.id) (hc : op ≠ IndexOp.clear)
    (h : memAt idx.root p i) : memAt (applyOp idx op).root p i := by
  cases op with
  | add t =>
    show memAt (idx.addTask t).root p i
    rw [addTask_root]
    exact insertChains_memAt_mono t _ _ p i h
  | remove t =>
    show memAt (idx.removeTask t).root p i
    rw [removeTask_root]
    exact eraseChains_memAt_mono t _ _ p i (hop t rfl) h
  | clear => exact absurd rfl hc

theorem applyOps_preserves_memAt : ∀ (ops : List IndexOp) (idx : TaskSearchIndex)
    (p : List Char) (i : Nat),
    (∀ t, IndexOp.remove t ∈ ops → i ≠ t.id) → IndexOp.clear ∉ ops →
    memAt idx.root p i → memAt (applyOps idx ops).root p i := by
  intro ops
  induction ops with
  | nil => exact fun idx p i _ _ h => h
  | cons op rest ih =>
    intro idx p i hrem hclear h
    show memAt (applyOps (applyOp idx op) rest).root p i
    refine ih (applyOp idx op) p i
      (fun t ht => hrem t (List.mem_cons_of_mem _ ht))
      (fun hc => hclear (List.mem_cons_of_mem _ hc)) ?_
    refine applyOp_preserves_memAt idx op p i
      (fun t ht => hrem t (by rw [ht]; exact List.mem_cons_self _ _))
      (fun hc => hclear (by rw [hc]; exact List.mem_cons_self _ _)) h

/-- C1.  Prefix correctness: if `R` is added and the subsequent operations
neither remove `R` nor clear the index, then for every indexable string `s`
of `R`, every start offset `i`, and every non-empty string `p` that is a
prefix of the suffix `s[i..]` up to case, `searchPrefix p` includes `R`. -/
theorem C1_prefix_correct (idx : TaskSearchIndex) (R : Task) (ops : List IndexOp)
    (hnorem : ∀ t, IndexOp.remove t ∈ ops → t.id ≠ R.id)
    (hnoclear : IndexOp.clear ∉ ops)
    (s : List Char) (hs : s ∈ indexableStrings R)
    (i : Nat) (hi : i < s.length)
    (p : List Char) (hp : p ≠ [])
    (hpre : (toLowerCase p).isPrefixOf (s.drop i) = true) :
    ∃ u ∈ (applyOps (idx.addTask R) ops).searchPrefix p, u.id = R.id := by
  -- the chain the add created for the suffix s[i..]
  have hchain : (s.drop i).map toLowerChar ∈ allChains R := by
    rw [allChains, List.mem_flatMap]
    refine ⟨s, hs, ?_⟩
    rw [chainsOf, List.mem_map]
    exact ⟨i, List.mem_range.2 hi, rfl⟩
  have hadd : memAt (idx.addTask R).root ((s.drop i).map toLowerChar) R.id := by
    rw [addTask_root]
    exact insertChains_memAt_self R _ _ _ hchain
  have hfin : memAt (applyOps (idx.addTask R) ops).root
      ((s.drop i).map toLowerChar) R.id :=
    applyOps_preserves_memAt ops _ _ R.id
      (fun t ht => (hnorem t ht).symm) hnoclear hadd
  -- decompose the suffix along the queried string
  obtain ⟨zs, hzs⟩ := isPrefixOf_append hpre
  have hsplit : (s.drop i).map toLowerChar =
      p.map toLowerChar ++ zs.map toLowerChar := by
    rw [hzs, List.map_append]
    have : (toLowerCase p).map toLowerChar = p.map toLowerChar := toLowerCase_idem p
    rw [this]
  obtain ⟨m, hwalk, u, hu, hid⟩ := hfin
  rw [hsplit, walkRaw_append] at hwalk
  obtain ⟨n, hn, hnm⟩ := Option.bind_eq_some.1 hwalk
  -- evaluate searchPrefix
  unfold TaskSearchIndex.searchPrefix
  rw [if_neg hp, findNode_toLowerCase, hn]
  exact dedupById_exists_id _ R.id
    ⟨u, mem_collectAll_of_memAt hnm hu, hid⟩

/-- Witness for C1: a task named "ab", no later operations, suffix offset 1
and the capitalized query "B". -/
theorem C1_prefix_correct_witness :
    ∃ u ∈ (applyOps (TaskSearchIndex.emptyIndex.addTask
        ⟨1, "ab".data, [], [], .TODO, .LOW⟩) []).searchPrefix "B".data,
      u.id = 1 :=
  C1_prefix_correct TaskSearchIndex.emptyIndex
    ⟨1, "ab".data, [], [], .TODO, .LOW⟩ []
    (fun t ht => absurd ht (List.not_mem_nil _))
    (List.not_mem_nil _)
    "ab".data (by decide)
    1 (by decide)
    "B".data (by decide)
    (by decide)

/-! ### Per-node uniqueness of back-references -/

/-- Every reachable node's back-reference list has pairwise-distinct
identities. -/
def nodupIds (tr : Trie) : Prop :=
  ∀ p n, walkRaw tr p = some n → (n.tasks.map Task.id).Nodup

theorem nodupIds_empty : nodupIds Trie.empty := by
  intro p n hw
  cases p with
  | nil =>
    rw [walkRaw_nil] at hw
    cases hw
    simp [Trie.empty, Trie.tasks]
  | cons c q =>
    rw [walkRaw_cons] at hw
    simp [Trie.empty, Trie.children, getChild] at hw

theorem nodupIds_getChild {ts : List Task} {ch : List (Char × Trie)} {c : Char}
    {child : Trie} (h : nodupIds (.node ts ch)) (hg : getChild ch c = some child) :
    nodupIds child := by
  intro q n hw
  refine h (c :: q) n ?_
  rw [walkRaw_cons]
  simp only [Trie.children]
  rw [hg]
  exact hw

theorem nodupIds_node_tasks {ts : List Task} {ch : List (Char × Trie)}
    (h : nodupIds (.node ts ch)) : (ts.map Task.id).Nodup := by
  have := h [] _ (walkRaw_nil _)
  simpa [Trie.tasks] using this

theorem nodupIds_insertRaw : ∀ (cs : List Char) (tr : Trie) (t : Task),
    nodupIds tr → nodupIds (insertRaw tr cs t) := by
  intro cs
  induction cs with
  | nil =>
    intro tr t h
    cases tr with
    | node ts ch =>
      intro p n hw
      cases p with
      | nil =>
        rw [walkRaw_nil] at hw
        cases hw
        simp only [insertRaw, Trie.tasks]
        split
        · exact nodupIds_node_tasks h
        · rename_i hany
          rw [List.map_append]
          rw [List.nodup_append]
          refine ⟨nodupIds_node_tasks h, by simp, ?_⟩
          intro a ha hb
          simp only [List.map_cons, List.map_nil, List.mem_singleton] at hb
          subst hb
          rw [List.mem_map] at ha
          obtain ⟨u, hu, huid⟩ := ha
          exact hany (List.any_eq_true.2 ⟨u, hu, by simpa using huid⟩)
      | cons d q =>
        rw [walkRaw_cons] at hw
        simp only [insertRaw, Trie.children] at hw
        refine h (d :: q) n ?_
        rw [walkRaw_cons]
        simpa only [Trie.children] using hw
  | cons c rest ih =>
    intro tr t h
    cases tr with
    | node ts ch =>
      intro p n hw
      cases p with
      | nil =>
        rw [walkRaw_nil] at hw
        cases hw
        simp only [insertRaw, Trie.tasks]
        exact nodupIds_node_tasks h
      | cons d q =>
        rw [walkRaw_cons] at hw
        simp only [insertRaw, Trie.children] at hw
        by_cases hdc : d = c
        · subst hdc
          rw [getChild_setChild_self] at hw
          have hchild : nodupIds ((getChild ch d).getD Trie.empty) := by
            cases hgc : getChild ch d with
            | none => simpa [hgc] using nodupIds_empty
            | some child => simpa [hgc] using nodupIds_getChild h hgc
          exact ih _ t hchild q n hw
        · rw [getChild_setChild_ne _ _ hdc] at hw
          cases hgc : getChild ch d with
          | none => rw [hgc] at hw; cases hw
          | some child =>
            rw [hgc] at hw
            exact nodupIds_getChild h hgc q n hw

theorem nodupIds_eraseRaw : ∀ (cs : List Char) (tr : Trie) (t : Task),
    nodupIds tr → nodupIds (eraseRaw tr cs t) := by
  intro cs
  induction cs with
  | nil =>
    intro tr t h
    cases tr with
    | node ts ch =>
      intro p n hw
      cases p with
      | nil =>
        rw [walkRaw_nil] at hw
        cases hw
        simp only [eraseRaw, Trie.tasks]
        exact ((List.filter_sublist ts).map Task.id).nodup (nodupIds_node_tasks h)
      | cons d q =>
        rw [walkRaw_cons] at hw
        simp only [eraseRaw, Trie.children] at hw
        refine h (d :: q) n ?_
        rw [walkRaw_cons]
        simpa only [Trie.children] using hw
  | cons c rest ih =>
    intro tr t h
    cases tr with
    | node ts ch =>
      cases hgc : getChild ch c with
      | none =>
        intro p n hw
        cases p with
        | nil =>
          rw [walkRaw_nil] at hw
          cases hw
          simp only [eraseRaw, hgc, Trie.tasks]
          exact ((List.filter_sublist ts).map Task.id).nodup (nodupIds_node_tasks h)
        | cons d q =>
          rw [walkRaw_cons] at hw
          simp only [eraseRaw, hgc, Trie.children] at hw
          refine h (d :: q) n ?_
          rw [walkRaw_cons]
          simpa only [Trie.children] using hw
      | some child =>
        intro p n hw
        cases p with
        | nil =>
          rw [walkRaw_nil] at hw
          cases hw
          simp only [eraseRaw, hgc, Trie.tasks]
          exact nodupIds_node_tasks h
        | cons d q =>
          rw [walkRaw_cons] at hw
          simp only [eraseRaw, hgc, Trie.children] at hw
          by_cases hdc : d = c
          · subst hdc
            rw [getChild_setChild_self] at hw
            exact ih _ t (nodupIds_getChild h hgc) q n hw
          · rw [getChild_setChild_ne _ _ hdc] at hw
            cases hgd : getChild ch d with
            | none => rw [hgd] at hw; cases hw
            | some child' =>
              rw [hgd] at hw
              exact nodupIds_getChild h hgd q n hw

theorem nodupIds_insertChains (t : Task) : ∀ (L : List (List Char)) (tr : Trie),
    nodupIds tr → nodupIds (insertChains tr L t) := by
  intro L
  induction L with
  | nil => exact fun tr h => h
  | cons a tail ih => exact fun tr h => ih _ (nodupIds_insertRaw a tr t h)

theorem nodupIds_eraseChains (t : Task) : ∀ (L : List (List Char)) (tr : Trie),
    nodupIds tr → nodupIds (eraseChains tr L t) := by
  intro L
  induction L with
  | nil => exact fun tr h => h
  | cons a tail ih => exact fun tr h => ih _ (nodupIds_eraseRaw a tr t h)

theorem nodupIds_applyOps : ∀ (ops : List IndexOp) (idx : TaskSearchIndex),
    nodupIds idx.root → nodupIds (applyOps idx ops).root := by
  intro ops
  induction ops with
  | nil => exact fun idx h => h
  | cons op rest ih =>
    intro idx h
    refine ih (applyOp idx op) ?_
    cases op with
    | add t =>
      show nodupIds (idx.addTask t).root
      rw [addTask_root]
      exact nodupIds_insertChains t _ _ h
    | remove t =>
      show nodupIds (idx.removeTask t).root
      rw [removeTask_root]
      exact nodupIds_eraseChains t _ _ h
    | clear => exact nodupIds_empty

/-- C5.  Per-node uniqueness invariant: in every index state reachable from
the empty index by `addTask`, `removeTask` and `clear`, every node's
back-reference list carries each record identity at most once. -/
theorem C5_node_uniqueness (ops : List IndexOp) (p : List Char) (n : Trie)
    (hw : walkRaw (applyOps TaskSearchIndex.emptyIndex ops).root p = some n) :
    (n.tasks.map Task.id).Nodup :=
  nodupIds_applyOps ops TaskSearchIndex.emptyIndex nodupIds_empty p n hw

/-- Witness for C5: after adding the same task twice, the root's task list
(at the path "a") still lists the identity once. -/
theorem C5_node_uniqueness_witness :
    ∃ n, walkRaw (applyOps TaskSearchIndex.emptyIndex
        [.add ⟨1, "a".data, [], [], .TODO, .LOW⟩,
         .add ⟨1, "a".data, [], [], .TODO, .LOW⟩]).root ['a'] = some n ∧
      (n.tasks.map Task.id).Nodup := by
  cases hw : walkRaw (applyOps TaskSearchIndex.emptyIndex
      [.add ⟨1, "a".data, [], [], .TODO, .LOW⟩,
       .add ⟨1, "a".data, [], [], .TODO, .LOW⟩]).root ['a'] with
  | none => exact absurd (congrArg Option.isSome hw) (by decide)
  | some n =>
    exact ⟨n, rfl, C5_node_uniqueness
      [.add ⟨1, "a".data, [], [], .TODO, .LOW⟩,
       .add ⟨1, "a".data, [], [], .TODO, .LOW⟩] ['a'] n hw⟩

/-- C3.  Substring correctness: for a non-empty query and a currently
indexed record (under the address-uniqueness of back-references the caller
guarantees), `searchSubstring` includes the record exactly when the
lowercased query occurs in its lowercased name, description, or a tag; the
status and priority labels and the trie structure play no role. -/
theorem C3_substring_correct (idx : TaskSearchIndex) (s : List Char) (R : Task)
    (hs : s ≠ [])
    (hR : R ∈ idx.root.collectAll)
    (huniq : ∀ u ∈ idx.root.collectAll, u.id = R.id → u = R) :
    R ∈ idx.searchSubstring s ↔
      (containsSub (toLowerCase s) (toLowerCase R.name) = true ∨
       containsSub (toLowerCase s) (toLowerCase R.description) = true ∨
       ∃ tag ∈ R.tags, containsSub (toLowerCase s) (toLowerCase tag) = true) := by
  unfold TaskSearchIndex.searchSubstring
  rw [if_neg hs, List.mem_filter]
  constructor
  · intro ⟨_, hmatch⟩
    simpa [taskMatchesSub, Bool.or_eq_true, List.any_eq_true, or_assoc] using hmatch
  · intro h
    refine ⟨mem_dedupById_of_uniq _ R hR huniq, ?_⟩
    simpa [taskMatchesSub, Bool.or_eq_true, List.any_eq_true, or_assoc] using h

/-- Witness for C3: one task named "buy" carrying the tag "urgent"; the query
"rg" matches through the tag (mid-word, which the trie alone cannot
deliver). -/
theorem C3_substring_correct_witness :
    ⟨1, "buy".data, [], ["urgent".data], .TODO, .LOW⟩ ∈
      (TaskSearchIndex.emptyIndex.addTask
        ⟨1, "buy".data, [], ["urgent".data], .TODO, .LOW⟩).searchSubstring "rg".data := by
  refine (C3_substring_correct
    (TaskSearchIndex.emptyIndex.addTask
      ⟨1, "buy".data, [], ["urgent".data], .TODO, .LOW⟩)
    "rg".data ⟨1, "buy".data, [], ["urgent".data], .TODO, .LOW⟩
    (by decide) (by decide) (by decide)).2 ?_
  refine Or.inr (Or.inr ⟨"urgent".data, ?_, by decide⟩)
  decide

/-! ### Removal of a record with no occurrences is the identity -/

theorem eraseRaw_id_of_no_occ : ∀ (cs : List Char) (tr : Trie) (t : Task),
    (∀ p, ¬ memAt tr p t.id) → eraseRaw tr cs t = tr := by
  intro cs
  induction cs with
  | nil =>
    intro tr t h
    cases tr with
    | node ts ch =>
      simp only [eraseRaw]
      congr 1
      refine List.filter_eq_self.2 ?_
      intro u hu
      simp only [bne_iff_ne, ne_eq]
      intro hid
      exact h [] ((memAt_nil _ _).2 ⟨u, by simpa [Trie.tasks] using hu, hid⟩)
  | cons c rest ih =>
    intro tr t h
    cases tr with
    | node ts ch =>
      cases hgc : getChild ch c with
      | none =>
        simp only [eraseRaw, hgc]
        congr 1
        refine List.filter_eq_self.2 ?_
        intro u hu
        simp only [bne_iff_ne, ne_eq]
        intro hid
        exact h [] ((memAt_nil _ _).2 ⟨u, by simpa [Trie.tasks] using hu, hid⟩)
      | some child =>
        simp only [eraseRaw, hgc]
        have hchild : ∀ p, ¬ memAt child p t.id := by
          intro p hmem
          refine h (c :: p) ((memAt_cons _ _ _ _).2 ⟨child, ?_, hmem⟩)
          simpa [Trie.children] using hgc
        rw [ih child t hchild, setChild_getChild_self hgc]

theorem eraseChains_id (t : Task) : ∀ (L : List (List Char)) (tr : Trie),
    (∀ p, ¬ memAt tr p t.id) → eraseChains tr L t = tr := by
  intro L
  induction L with
  | nil => exact fun tr _ => rfl
  | cons a tail ih =>
    intro tr h
    show eraseChains (eraseRaw tr a t) tail t = tr
    rw [eraseRaw_id_of_no_occ a tr t h]
    exact ih tr h

/-- C8.  Removing a record that the trie holds no back-reference to leaves
the trie — and hence every prefix and substring query result — exactly
unchanged; the walk silently stops at missing edges and nothing fails. -/
theorem C8_remove_unindexed_harmless (idx : TaskSearchIndex) (R : Task)
    (hno : ∀ u ∈ idx.root.collectAll, u.id ≠ R.id) :
    (idx.removeTask R).root = idx.root ∧
      (∀ q, (idx.removeTask R).searchPrefix q = idx.searchPrefix q) ∧
      (∀ q, (idx.removeTask R).searchSubstring q = idx.searchSubstring q) := by
  have hpath : ∀ p, ¬ memAt idx.root p R.id := by
    rintro p ⟨n, hw, u, hu, hid⟩
    exact hno u (mem_collectAll_of_memAt hw hu) hid
  have hroot : (idx.removeTask R).root = idx.root := by
    rw [removeTask_root]
    exact eraseChains_id R _ _ hpath
  exact ⟨hroot, fun q => searchPrefix_root_congr hroot q,
    fun q => searchSubstring_root_congr hroot q⟩

/-- Witness for C8: removing a never-added record (id 2) from an index
holding a record named "a" (id 1) leaves the query "a" unchanged. -/
theorem C8_remove_unindexed_harmless_witness :
    ((TaskSearchIndex.emptyIndex.addTask
        ⟨1, "a".data, [], [], .TODO, .LOW⟩).removeTask
        ⟨2, "zz".data, [], [], .TODO, .LOW⟩).searchPrefix "a".data =
      (TaskSearchIndex.emptyIndex.addTask
        ⟨1, "a".data, [], [], .TODO, .LOW⟩).searchPrefix "a".data :=
  (C8_remove_unindexed_harmless
    (TaskSearchIndex.emptyIndex.addTask ⟨1, "a".data, [], [], .TODO, .LOW⟩)
    ⟨2, "zz".data, [], [], .TODO, .LOW⟩ (by decide)).2.1 "a".data

theorem memAt_isSome {tr : Trie} {p : List Char} {i : Nat} (h : memAt tr p i) :
    (walkRaw tr p).isSome = true := by
  obtain ⟨n, hw, _⟩ := h
  rw [hw]
  rfl

theorem walkRaw_compose {tr n m : Trie} {p q : List Char}
    (h1 : walkRaw tr p = some n) (h2 : walkRaw n q = some m) :
    walkRaw tr (p ++ q) = some m := by
  rw [walkRaw_append, h1]
  exact h2

/-- After `addTask` then `removeTask` of the same record, no node holds its
identity, provided every pre-existing occurrence of the record already lay
on one of its current chains (that is, its text fields have not changed
since any earlier indexing). -/
theorem remove_after_add_no_occ (idx : TaskSearchIndex) (R : Task)
    (hstale : ∀ p, memAt idx.root p R.id → p ∈ allChains R) :
    ∀ p, ¬ memAt ((idx.addTask R).removeTask R).root p R.id := by
  have hocc : ∀ p, memAt (idx.addTask R).root p R.id → p ∈ allChains R := by
    intro p hmem
    rw [addTask_root] at hmem
    rcases insertChains_memAt_inv R _ _ p R.id hmem with hin | ⟨hp, _⟩
    · exact hstale p hin
    · exact hp
  have hlive : ∀ cs ∈ allChains R, (walkRaw (idx.addTask R).root cs).isSome := by
    intro cs hcs
    refine memAt_isSome (i := R.id) ?_
    rw [addTask_root]
    exact insertChains_memAt_self R _ _ cs hcs
  intro p
  rw [removeTask_root]
  exact eraseChains_kills R (allChains R) _ hocc hlive p

/-- C2.  Removal completeness: on a well-formed index in which every
pre-existing occurrence of `R` lies on one of `R`'s own chains (`R`'s text
fields unchanged since any earlier indexing — vacuously true when `R` was
never indexed), after `addTask R` then `removeTask R` neither `searchPrefix`
nor `searchSubstring` can return `R` for any query, and the record counter
is decremented by exactly one from its post-add (positive) value, landing
back at its pre-add value. -/
theorem C2_removal_complete (idx : TaskSearchIndex) (R : Task)
    (hwf : wf idx.root = true)
    (hstale : ∀ p, memAt idx.root p R.id → p ∈ allChains R) :
    (∀ q u, u ∈ ((idx.addTask R).removeTask R).searchPrefix q → u.id ≠ R.id) ∧
      (∀ q u, u ∈ ((idx.addTask R).removeTask R).searchSubstring q → u.id ≠ R.id) ∧
      ((idx.addTask R).removeTask R).total_indexed_tasks =
        (idx.addTask R).total_indexed_tasks - 1 ∧
      (idx.addTask R).total_indexed_tasks = idx.total_indexed_tasks + 1 ∧
      ((idx.addTask R).removeTask R).total_indexed_tasks =
        idx.total_indexed_tasks := by
  have hkill := remove_after_add_no_occ idx R hstale
  have hwf2 : wf ((idx.addTask R).removeTask R).root = true := by
    rw [removeTask_root]
    refine wf_eraseChains _ _ R ?_
    rw [addTask_root]
    exact wf_insertChains _ _ R hwf
  have hnotin : ∀ u, u ∈ ((idx.addTask R).removeTask R).root.collectAll →
      u.id ≠ R.id := by
    intro u hu hid
    obtain ⟨p', n', hw', hu'⟩ := (mem_collectAll_iff hwf2).1 hu
    exact hkill p' ⟨n', hw', u, hu', hid⟩
  refine ⟨?_, ?_, ?_, ?_, ?_⟩
  · intro q u hu hid
    revert hu
    unfold TaskSearchIndex.searchPrefix
    by_cases hq : q = []
    · rw [if_pos hq]
      exact fun h => absurd h (List.not_mem_nil u)
    · rw [if_neg hq, findNode_eq_raw]
      cases hfn : walkRaw ((idx.addTask R).removeTask R).root
          ((toLowerCase q).map toLowerChar) with
      | none => exact fun h => absurd h (List.not_mem_nil u)
      | some n =>
        intro hu
        have hun : u ∈ n.collectAll := dedupById_subset _ u hu
        have hwfn : wf n = true := wf_walk _ _ n hwf2 hfn
        obtain ⟨p', n', hw', hu'⟩ := (mem_collectAll_iff hwfn).1 hun
        exact hkill _ ⟨n', walkRaw_compose hfn hw', u, hu', hid⟩
  · intro q u hu hid
    revert hu
    unfold TaskSearchIndex.searchSubstring
    by_cases hq : q = []
    · rw [if_pos hq]
      exact fun h => absurd h (List.not_mem_nil u)
    · rw [if_neg hq]
      intro hu
      exact hnotin u (dedupById_subset _ u (List.mem_filter.1 hu).1) hid
  · rw [removeTask_total, addTask_total, if_pos (Nat.succ_pos _)]
  · exact addTask_total idx R
  · rw [removeTask_total, addTask_total, if_pos (Nat.succ_pos _)]
    omega

/-- Witness for C2: adding and removing a task named "ab" on the empty
index; the query "a" (which matched after the add) finds nothing with its
identity, and the counter returns to zero. -/
theorem C2_removal_complete_witness :
    (∀ u, u ∈ ((TaskSearchIndex.emptyIndex.addTask
        ⟨1, "ab".data, [], [], .TODO, .LOW⟩).removeTask
        ⟨1, "ab".data, [], [], .TODO, .LOW⟩).searchPrefix "a".data →
      u.id ≠ 1) ∧
    ((TaskSearchIndex.emptyIndex.addTask
        ⟨1, "ab".data, [], [], .TODO, .LOW⟩).removeTask
        ⟨1, "ab".data, [], [], .TODO, .LOW⟩).total_indexed_tasks = 0 := by
  have h := C2_removal_complete TaskSearchIndex.emptyIndex
    ⟨1, "ab".data, [], [], .TODO, .LOW⟩ (by decide)
    (fun p hp => absurd hp (memAt_empty_false p 1))
  exact ⟨fun u hu => h.1 "a".data u hu, by
    have h5 := h.2.2.2.2
    simpa using h5⟩

/-- C9.  The dirty-flag state machine of the record store: the flag starts
DIRTY at construction; each collection mutation (add, remove, remove-all,
update) sets it to DIRTY while the non-mutating branches of those calls
leave the store untouched; the rebuild step on a DIRTY flag clears the
index, re-adds every current task and sets the flag CLEAN, and on a CLEAN
flag does nothing; the index-backed search runs the rebuild-if-dirty step
first (except for the empty query, which fails closed before any index
access).  These are all the transitions the modeled operations have. -/
theorem C9_dirty_flag_machine (s : TasksStore) (l : List Task) (nid : Nat)
    (nm desc : List Char) (st : TaskStatus) (pr : TaskPriority)
    (tags : List (List Char)) (i : Nat) (q : List Char) :
    (TasksStore.mkStore l nid).index_dirty = true ∧
      (nm ≠ [] → (s.addNewTask nm desc st pr tags).index_dirty = true) ∧
      (nm = [] → s.addNewTask nm desc st pr tags = s) ∧
      (s.tasks.any (fun t => t.id == i) = true →
        (s.removeTaskById i).index_dirty = true) ∧
      (s.tasks.any (fun t => t.id == i) = false → s.removeTaskById i = s) ∧
      (s.tasks ≠ [] → s.removeAllTasks.index_dirty = true) ∧
      (s.tasks = [] → s.removeAllTasks = s) ∧
      (s.tasks.any (fun t => t.id == i) = true → nm ≠ [] →
        (s.updateTask i nm st pr).index_dirty = true) ∧
      (s.tasks.any (fun t => t.id == i) = false → s.updateTask i nm st pr = s) ∧
      (nm = [] → s.updateTask i nm st pr = s) ∧
      (s.index_dirty = true →
        s.rebuildSearchIndex.index_dirty = false ∧
        s.rebuildSearchIndex.search_index =
          s.tasks.foldl TaskSearchIndex.addTask s.search_index.clear ∧
        s.rebuildSearchIndex.tasks = s.tasks) ∧
      (s.index_dirty = false → s.rebuildSearchIndex = s) ∧
      (q ≠ [] → (s.advancedSearch q).1 = s.rebuildSearchIndex) ∧
      (q = [] → s.advancedSearch q = (s, [])) := by
  refine ⟨rfl, ?_, ?_, ?_, ?_, ?_, ?_, ?_, ?_, ?_, ?_, ?_, ?_, ?_⟩
  · intro h
    unfold TasksStore.addNewTask
    rw [if_neg h]
  · intro h
    unfold TasksStore.addNewTask
    rw [if_pos h]
  · intro h
    unfold TasksStore.removeTaskById
    rw [if_pos h]
  · intro h
    unfold TasksStore.removeTaskById
    rw [if_neg (by simp [h])]
  · intro h
    unfold TasksStore.removeAllTasks
    rw [if_neg h]
  · intro h
    unfold TasksStore.removeAllTasks
    rw [if_pos h]
  · intro h hnm
    unfold TasksStore.updateTask
    rw [if_pos h, if_neg hnm]
  · intro h
    unfold TasksStore.updateTask
    rw [if_neg (by simp [h])]
  · intro h
    unfold TasksStore.updateTask
    by_cases hf : s.tasks.any (fun t => t.id == i) = true
    · rw [if_pos hf, if_pos h]
    · rw [if_neg hf]
  · intro h
    unfold TasksStore.rebuildSearchIndex
    rw [if_pos h]
    exact ⟨rfl, rfl, rfl⟩
  · intro h
    unfold TasksStore.rebuildSearchIndex
    rw [if_neg (by simp [h])]
  · intro h
    unfold TasksStore.advancedSearch
    rw [if_neg h]
  · intro h
    unfold TasksStore.advancedSearch
    rw [if_pos h]

/-- Witness for C9 at concrete inputs: a store built from an empty file
starts dirty, an add on it marks it dirty, and the rebuild cleans it. -/
theorem C9_dirty_flag_machine_witness :
    ((TasksStore.mkStore [] 1).addNewTask "a".data [] .TODO .LOW
      []).index_dirty = true ∧
    ((TasksStore.mkStore [] 1).addNewTask "a".data [] .TODO .LOW
      []).rebuildSearchIndex.index_dirty = false := by
  have h1 := (C9_dirty_flag_machine (TasksStore.mkStore [] 1) [] 1 "a".data []
    .TODO .LOW [] 0 []).2.1 (by decide)
  have h2 := (C9_dirty_flag_machine
    ((TasksStore.mkStore [] 1).addNewTask "a".data [] .TODO .LOW []) [] 1
    "a".data [] .TODO .LOW [] 0 []).2.2.2.2.2.2.2.2.2.2.1 h1
  exact ⟨h1, h2.1⟩

end TaskSystem
